import Mathlib

/-!
Verification of the YouTube summary bot's core pipeline against its
natural-language specification.

The repository's Python sources are shallowly embedded: Python strings are
modelled as `List Char`, each embedded function mirrors the control flow of
its source (file and function named in the doc comment), and external
effects (YouTube API, subprocess, Telegram sends, SQLite) are modelled by
passing the outcome of each effect explicitly.
-/

namespace YtBot

/-! ## Python string primitives on `List Char`

Python's `str.strip()` / `str.split()` treat the six ASCII whitespace
characters as whitespace (space, tab, newline, carriage return, vertical
tab, form feed); the embedding models that set.
-/

/-- Python whitespace predicate (ASCII range of `str.isspace`). -/
def pyIsSpace (c : Char) : Bool :=
  c = ' ' || c = '\t' || c = '\n' || c = '\r' || c = Char.ofNat 11 || c = Char.ofNat 12

/-- Python `s.strip()` for the left end: drop leading whitespace. -/
def stripL (s : List Char) : List Char := s.dropWhile pyIsSpace

/-- Python `str.strip()`: drop leading and trailing whitespace. -/
def pyStrip (s : List Char) : List Char :=
  ((s.dropWhile pyIsSpace).reverse.dropWhile pyIsSpace).reverse

/-- Python `text.split("\n\n")`: split on non-overlapping occurrences of a
blank line separator, left to right, keeping empty pieces.  `acc` holds the
reversed characters of the piece being read. -/
def splitParaAux : List Char → List Char → List (List Char)
  | [], acc => [acc.reverse]
  | [c], acc => [(c :: acc).reverse]
  | a :: b :: rest, acc =>
      if a = '\n' ∧ b = '\n' then acc.reverse :: splitParaAux rest []
      else splitParaAux (b :: rest) (a :: acc)

/-- Python `text.split("\n\n")`. -/
def pySplitParas (s : List Char) : List (List Char) := splitParaAux s []

/-- Python `text.split()` (no separator): the maximal whitespace-free runs,
empty pieces dropped.  `acc` holds the reversed characters of the current run. -/
def splitWsAux : List Char → List Char → List (List Char)
  | [], acc => if acc.isEmpty then [] else [acc.reverse]
  | c :: rest, acc =>
      if pyIsSpace c then
        if acc.isEmpty then splitWsAux rest [] else acc.reverse :: splitWsAux rest []
      else splitWsAux rest (c :: acc)

/-- Python `text.split()`. -/
def pySplitWs (s : List Char) : List (List Char) := splitWsAux s []

/-- Python `text.split("\n")`. -/
def splitNlAux : List Char → List Char → List (List Char)
  | [], acc => [acc.reverse]
  | c :: rest, acc =>
      if c = '\n' then acc.reverse :: splitNlAux rest []
      else splitNlAux rest (c :: acc)

/-- Python `text.split("\n")`. -/
def pySplitNl (s : List Char) : List (List Char) := splitNlAux s []

/-- Python `sub in s` / `s.find(sub)`: index of the first (case-sensitive)
occurrence of `p` in `s`, if any. -/
def findSub (p : List Char) : List Char → Option Nat
  | [] => if p.isEmpty then some 0 else none
  | c :: rest =>
      if p.isPrefixOf (c :: rest) then some 0
      else (findSub p rest).map (· + 1)

/-- Python `s.rfind(ch, 0, bound)`: the largest index `i < bound` with
`s[i] = ch`, if any.  `i` is the index of the head of the list being scanned. -/
def rfindLtAux (ch : Char) (bound : Nat) : List Char → Nat → Option Nat
  | [], _ => none
  | c :: rest, i =>
      match rfindLtAux ch bound rest (i + 1) with
      | some j => some j
      | none => if c = ch ∧ i < bound then some i else none

/-- Python `s.rfind(ch, 0, bound)`. -/
def rfindLt (ch : Char) (bound : Nat) (s : List Char) : Option Nat :=
  rfindLtAux ch bound s 0

/-- Python `s.lower()` (ASCII case folding, as used on the tag names and
stderr text in this repository). -/
def pyLower (s : List Char) : List Char := s.map Char.toLower

/-! ## `src/bot/formatters.py` -/

/-- Constant `formatters.TELEGRAM_MAX_LENGTH`. -/
def TELEGRAM_MAX_LENGTH : Nat := 4096

/-- Case-insensitive character match (`re.IGNORECASE`). -/
def icEq (a b : Char) : Bool := a.toLower == b.toLower

/-- Case-insensitive prefix test, modelling a `re.IGNORECASE` literal match
at the current position. -/
def icIsPrefix : List Char → List Char → Bool
  | [], _ => true
  | _ :: _, [] => false
  | a :: p, b :: s => icEq a b && icIsPrefix p s

/-- Python `len(re.findall(pat, s, re.IGNORECASE))` for a literal pattern `p`:
count non-overlapping occurrences scanning left to right.  `skip` is the
number of remaining characters covered by the previous match. -/
def countAux (p : List Char) : Nat → List Char → Nat
  | _, [] => 0
  | k + 1, _ :: rest => countAux p k rest
  | 0, c :: rest =>
      if icIsPrefix p (c :: rest) then 1 + countAux p (p.length - 1) rest
      else countAux p 0 rest

/-- Number of case-insensitive non-overlapping occurrences of `p` in `s`. -/
def countOcc (p s : List Char) : Nat := countAux p 0 s

/-- Python `re.sub(pat, '', s, count=1, flags=re.IGNORECASE)` for a literal
pattern: remove the first (leftmost) occurrence, if any. -/
def removeFirst (p : List Char) : List Char → List Char
  | [] => []
  | c :: rest =>
      if icIsPrefix p (c :: rest) then List.drop (p.length - 1) rest
      else c :: removeFirst p rest

/-- Iterated `removeFirst`, modelling the `for _ in range(n)` removal loop. -/
def removeN (p : List Char) : Nat → List Char → List Char
  | 0, s => s
  | n + 1, s => removeN p n (removeFirst p s)

/-- A pattern shaped like the tag literals: it starts with `<` and no later
character of it matches `<` (even case-insensitively).  Occurrences of such
patterns cannot overlap each other or straddle a boundary whose right side
starts with `<`. -/
def headLtOnly (p : List Char) : Bool :=
  match p with
  | c :: q => icEq c '<' && q.all fun d => !(icEq d '<')
  | [] => false

/-- The whitespace-erased content of a text: what remains of a message
after the paragraph/word re-joining characters (all whitespace) are
ignored. -/
def nonWsContent (l : List Char) : List Char := l.filter fun c => !(pyIsSpace c)

/-- The literal `<tag>` for a tag name. -/
def openLit (t : List Char) : List Char := '<' :: (t ++ ['>'])

/-- The literal `</tag>` for a tag name. -/
def closeLit (t : List Char) : List Char := '<' :: '/' :: (t ++ ['>'])

/-- The supported tag set of `fix_html_tags`. -/
def supportedTags : List (List Char) :=
  [['b'], ['i'], ['u'], ['s'], ['c', 'o', 'd', 'e'], ['p', 'r', 'e']]

/-- One iteration of the `for tag in tags` loop of
`formatters.fix_html_tags`: count opens and closes of `t`; append the
missing closers at the end, or remove the excess closers leftmost-first. -/
def fixTag (t : List Char) (text : List Char) : List Char :=
  let oc := countOcc (openLit t) text
  let cc := countOcc (closeLit t) text
  if cc < oc then text ++ (List.replicate (oc - cc) (closeLit t)).flatten
  else if oc < cc then removeN (closeLit t) (cc - oc) text
  else text

/-- The `for tag in tags` loop of `fix_html_tags`, in source order. -/
def fixTagsList : List (List Char) → List Char → List Char
  | [], text => text
  | t :: ts, text => fixTagsList ts (fixTag t text)

/-- Function `formatters.fix_html_tags`. -/
def fix_html_tags (text : List Char) : List Char := fixTagsList supportedTags text

/-- State of `formatters.split_message`: the accumulated `parts` list and
the `current` buffer. -/
structure SplitState where
  parts : List (List Char)
  current : List Char
deriving DecidableEq

/-- The inner `for word in words` loop of `split_message`. -/
def packWords (maxLength : Nat) : List (List Char) → SplitState → SplitState
  | [], st => st
  | w :: ws, st =>
      if st.current.length + w.length + 1 ≤ maxLength then
        packWords maxLength ws { st with current := st.current ++ w ++ [' '] }
      else
        let parts := if st.current.isEmpty then st.parts else st.parts ++ [pyStrip st.current]
        packWords maxLength ws { parts := parts, current := w ++ [' '] }

/-- The outer `for para in paragraphs` loop of `split_message`. -/
def packParas (maxLength : Nat) : List (List Char) → SplitState → SplitState
  | [], st => st
  | p :: ps, st =>
      if st.current.length + p.length + 2 ≤ maxLength then
        packParas maxLength ps { st with current := st.current ++ p ++ ['\n', '\n'] }
      else
        let parts1 := if st.current.isEmpty then st.parts else st.parts ++ [pyStrip st.current]
        if maxLength < p.length then
          packParas maxLength ps (packWords maxLength (pySplitWs p) ⟨parts1, []⟩)
        else
          packParas maxLength ps ⟨parts1, p ++ ['\n', '\n']⟩

/-- Function `formatters.split_message(text, max_length)`. -/
def split_message (text : List Char) (maxLength : Nat) : List (List Char) :=
  if text.length ≤ maxLength then [text]
  else
    let st := packParas maxLength (pySplitParas text) ⟨[], []⟩
    let parts := if (pyStrip st.current).isEmpty then st.parts
                 else st.parts ++ [pyStrip st.current]
    if parts.isEmpty then [text.take maxLength] else parts

/-- The caption/body section marker of `split_summary_for_photo`. -/
def PHOTO_MARKER : List Char := "📖 상세 요약".toList

/-- Function `formatters.split_summary_for_photo`. -/
def split_summary_for_photo (summary : List Char) : List Char × List Char :=
  let (caption, body) :=
    match findSub PHOTO_MARKER summary with
    | some idx => (pyStrip (summary.take idx), pyStrip (summary.drop idx))
    | none => (summary.take 900, summary.drop 900)
  if 1024 < caption.length then
    let cutPos :=
      match rfindLt '\n' 1000 caption with
      | some j => j
      | none =>
          match rfindLt ' ' 1000 caption with
          | some j => j
          | none => 1000
    (pyStrip (caption.take cutPos) ++ ['.', '.', '.'], body)
  else (caption, body)

/-! ## `src/services/errors.py` -/

/-- Enum `errors.ErrorType`. -/
inductive ErrorType
  | NO_TRANSCRIPT
  | YOUTUBE_API_QUOTA
  | CLAUDE_TOKEN_LIMIT
  | TIMEOUT
  | BOT_INACTIVE
  | UNKNOWN
deriving DecidableEq

/-- Dataclass `errors.SummaryError`. -/
structure SummaryError where
  error_type : ErrorType
  message : List Char
  video_title : Option (List Char) := none
  video_id : Option (List Char) := none
deriving DecidableEq

/-! ## `src/db/models.py` and `src/services/youtube.py` video values

`models.Video` declares `id, video_id, channel_id, title, duration_seconds,
published_at, summarized_at, created_at`; the constructors in `youtube.py`
additionally pass `channel_name` and `thumbnail_url`, which the summarizer
and scheduler read, so the embedded record carries the union of the fields
the pipeline uses.  Timestamps are modelled as integers. -/
structure Video where
  video_id : List Char
  channel_id : List Char
  title : List Char
  duration_seconds : Option Int := none
  published_at : Option Int := none
  channel_name : Option (List Char) := none
  thumbnail_url : Option (List Char) := none
deriving DecidableEq

/-! ## `src/services/claude_cli.py` -/

/-- Constant `claude_cli.TIMEOUT_SECONDS`. -/
def TIMEOUT_SECONDS : Nat := 180

/-- Outcome of the `claude` subprocess invocation, abstracting the spawn
and the bounded wait in `claude_cli.call_claude`:
either the process completed within the ceiling (with exit code, stdout and
stderr), or `asyncio.wait_for` raised `TimeoutError`, or spawning raised
`FileNotFoundError`, or some other exception was raised. -/
inductive CLIOutcome
  | completed (returncode : Int) (stdout : List Char) (stderr : List Char)
  | timedOut
  | toolNotFound
  | failed (msg : List Char)
deriving DecidableEq

/-- Result of `call_claude`: the `(result, error)` pair the function
returns, plus whether the branch killed the subprocess
(`process.kill()` in the `asyncio.TimeoutError` handler). -/
structure CallResult where
  summary : Option (List Char)
  error : Option SummaryError
  procKilled : Bool
deriving DecidableEq

/-- Python `sub in s` as a Bool. -/
def containsSub (p s : List Char) : Bool := (findSub p s).isSome

/-- Function `claude_cli.call_claude`, as a function of the subprocess outcome. -/
def call_claude (o : CLIOutcome) : CallResult :=
  match o with
  | .completed rc out err =>
      if rc ≠ 0 then
        if containsSub "rate".toList (pyLower err) || containsSub "limit".toList (pyLower err)
            || containsSub "quota".toList (pyLower err) then
          ⟨none, some ⟨.CLAUDE_TOKEN_LIMIT, "Claude API 사용량 한도에 도달했습니다.".toList, none, none⟩, false⟩
        else
          ⟨none, some ⟨.UNKNOWN, "Claude 실행 오류: ".toList ++ err.take 200, none, none⟩, false⟩
      else ⟨some (pyStrip out), none, false⟩
  | .timedOut =>
      ⟨none, some ⟨.TIMEOUT, "요약 생성이 180초를 초과하여 중단되었습니다.".toList, none, none⟩, true⟩
  | .toolNotFound =>
      ⟨none, some ⟨.BOT_INACTIVE, "Claude CLI가 설치되어 있지 않습니다.".toList, none, none⟩, false⟩
  | .failed m =>
      ⟨none, some ⟨.UNKNOWN, "예상치 못한 오류: ".toList ++ m, none, none⟩, false⟩

/-! ## `src/services/transcript.py` -/

/-- Outcome of the transcript API calls in `transcript.get_transcript`:
the primary `api.fetch(video_id, languages=["ko","en","ja"])` either
returns a list of entries, or raises `NoTranscriptFound` (after which the
unconstrained retry either returns entries or raises), or raises
`TranscriptsDisabled`, `VideoUnavailable`, or some other exception. -/
inductive TranscriptFetch
  | ok (entries : List (List Char))
  | noneFoundThenOk (entries : List (List Char))
  | noneFoundThenFail
  | disabled
  | unavailable
  | failed (msg : List Char)
deriving DecidableEq

/-- Python `" ".join(entry.text for entry in transcript)`. -/
def joinSpace (entries : List (List Char)) : List Char := List.intercalate [' '] entries

/-- Function `transcript.get_transcript`, as a function of the API outcome. -/
def get_transcript (video_id : List Char) (f : TranscriptFetch) :
    Option (List Char) × Option SummaryError :=
  match f with
  | .ok entries => (some (joinSpace entries), none)
  | .noneFoundThenOk entries => (some (joinSpace entries), none)
  | .noneFoundThenFail =>
      (none, some ⟨.NO_TRANSCRIPT, "이 영상에는 사용 가능한 자막이 없습니다.".toList, none, some video_id⟩)
  | .disabled =>
      (none, some ⟨.NO_TRANSCRIPT, "이 영상은 자막이 비활성화되어 있습니다.".toList, none, some video_id⟩)
  | .unavailable =>
      (none, some ⟨.NO_TRANSCRIPT, "영상을 찾을 수 없거나 비공개 상태입니다.".toList, none, some video_id⟩)
  | .failed m =>
      (none, some ⟨.UNKNOWN, "자막 추출 중 오류 발생: ".toList ++ m, none, some video_id⟩)

/-! ## `src/services/summarizer.py` -/

/-- Function `summarizer.get_min_sections`. -/
def get_min_sections (duration_seconds : Option Int) : Nat :=
  match duration_seconds with
  | none => 6
  | some s =>
      if s < 10 * 60 then 3
      else if s < 30 * 60 then 6
      else if s < 60 * 60 then 8
      else 10

/-- The content-start marker of `clean_summary_output`. -/
def CLEAN_MARKER : List Char := "📺 YouTube".toList

/-- The per-line test in the `for i, line in enumerate(lines)` loop of
`clean_summary_output` deciding whether a line counts as content. -/
def isContentLine (line : List Char) : Bool :=
  let st := pyStrip line
  !st.isEmpty &&
    (("📺".toList.isPrefixOf st) || ("▶️".toList.isPrefixOf st) ||
     ("🔗".toList.isPrefixOf st) || ("📅".toList.isPrefixOf st) ||
     ("⏱️".toList.isPrefixOf st) || ("📌".toList.isPrefixOf st) ||
     ("🏷️".toList.isPrefixOf st) || ("📖".toList.isPrefixOf st) ||
     ("•".toList.isPrefixOf st) ||
     (!st.isEmpty && !("---".toList.isPrefixOf st) &&
      !("this ".toList.isPrefixOf (pyLower st))))

/-- Index of the last content line (`last_content_idx`, default 0). -/
def lastContentIdx (lines : List (List Char)) : Nat :=
  lines.enum.foldl (fun acc il => if isContentLine il.2 then il.1 else acc) 0

/-- The final loop of `clean_summary_output`: stop at a bare `---` line and
drop English meta-commentary lines. -/
def dropMeta : List (List Char) → List (List Char)
  | [] => []
  | l :: rest =>
      if pyStrip l = "---".toList then []
      else if ("this summary".toList.isPrefixOf (pyLower (pyStrip l))) ||
              ("based on".toList.isPrefixOf (pyLower (pyStrip l))) then dropMeta rest
      else l :: dropMeta rest

/-- Function `summarizer.clean_summary_output`. -/
def clean_summary_output (text : List Char) : List Char :=
  let text :=
    match findSub CLEAN_MARKER text with
    | some idx => text.drop idx
    | none => text
  let lines := pySplitNl text
  let final := dropMeta (lines.take (lastContentIdx lines + 1))
  pyStrip (List.intercalate ['\n'] final)

/-- Python `re.sub(r'&(?!amp;|lt;|gt;|quot;)', '&amp;', s)`: escape each `&` that
does not already start a recognized entity. -/
def escapeAmp : List Char → List Char
  | [] => []
  | c :: rest =>
      if c = '&' && !("amp;".toList.isPrefixOf rest) && !("lt;".toList.isPrefixOf rest)
          && !("gt;".toList.isPrefixOf rest) && !("quot;".toList.isPrefixOf rest) then
        '&' :: 'a' :: 'm' :: 'p' :: ';' :: escapeAmp rest
      else c :: escapeAmp rest

/-- Function `summarizer.summarize_video`, as a function of the video record and the
outcomes of its three external effects (transcript fetch, prompt-template
load, summarizer subprocess).  Returns the `(summary, error)` pair. -/
def summarize_video (v : Video) (tf : TranscriptFetch) (promptExists : Bool)
    (cli : CLIOutcome) : Option (List Char) × Option SummaryError :=
  match get_transcript v.video_id tf with
  | (_, some e) =>
      (none, some { e with video_title := some v.title, video_id := some v.video_id })
  | (t?, none) =>
      let t := t?.getD []
      if t.isEmpty then
        (none, some ⟨.NO_TRANSCRIPT, "자막을 가져올 수 없습니다.".toList,
          some v.title, some v.video_id⟩)
      else if !promptExists then
        (none, some ⟨.UNKNOWN, "프롬프트 파일을 찾을 수 없습니다.".toList,
          some v.title, some v.video_id⟩)
      else
        match call_claude cli with
        | ⟨_, some e, _⟩ =>
            (none, some { e with video_title := some v.title, video_id := some v.video_id })
        | ⟨s?, none, _⟩ =>
            let s := s?.getD []
            (some (fix_html_tags (escapeAmp (clean_summary_output s))), none)

/-! ## `src/db/repositories.py` (record store) -/

/-- A row of the `videos` table (the columns the pipeline reads). -/
structure StoredVideo where
  video_id : List Char
  channel_id : List Char
  published_at : Option Int
  summarized_at : Option Int
deriving DecidableEq

/-- The record store; only the `videos` table matters to the claims. -/
structure Store where
  videos : List StoredVideo
deriving DecidableEq

/-- Operation `VideoRepository.exists(video_id)`. -/
def existsVideo (st : Store) (vid : List Char) : Bool :=
  st.videos.any (fun r => r.video_id == vid)

/-- Operation `VideoRepository.create(video)`: insert a stub row with
`summarized_at = NULL`. -/
def createVideo (st : Store) (v : Video) : Store :=
  ⟨st.videos ++ [⟨v.video_id, v.channel_id, v.published_at, none⟩]⟩

/-- Operation `VideoRepository.mark_summarized(video_id)` at time `now`. -/
def markSummarized (st : Store) (vid : List Char) (now : Int) : Store :=
  ⟨st.videos.map (fun r => if r.video_id == vid then { r with summarized_at := some now } else r)⟩

/-- The `summarized_at` column of the row with the given id, if present. -/
def summarizedAt (st : Store) (vid : List Char) : Option Int :=
  match st.videos.find? (fun r => r.video_id == vid) with
  | some r => r.summarized_at
  | none => none

/-- Operation `VideoRepository.get_latest_published_at(channel_id)`:
`MAX(published_at)` over the channel's rows (`NULL`s ignored). -/
def getLatestPublishedAt (st : Store) (cid : List Char) : Option Int :=
  match st.videos.filterMap (fun r => if r.channel_id == cid then r.published_at else none) with
  | [] => none
  | x :: xs => some (xs.foldl max x)

/-! ## `src/services/youtube.py` poller -/

/-- One item of the `videos().list` details response used by
`youtube.get_latest_videos` (after `parse_duration`). -/
structure FeedItem where
  video_id : List Char
  channel_id : List Char
  title : List Char
  liveBroadcastContent : List Char
  duration_seconds : Int
  published_at : Int
  channel_name : List Char
  thumbnail_url : List Char
deriving DecidableEq

/-- The `Video` built from a feed item by `get_latest_videos`. -/
def videoOfItem (it : FeedItem) : Video :=
  ⟨it.video_id, it.channel_id, it.title, some it.duration_seconds,
    some it.published_at, some it.channel_name, some it.thumbnail_url⟩

/-- Function `youtube.get_latest_videos`, as a function of the details response:
skip items whose `liveBroadcastContent` is `"live"` or `"upcoming"`. -/
def get_latest_videos (items : List FeedItem) : List Video :=
  items.filterMap (fun it =>
    if it.liveBroadcastContent = "live".toList ∨ it.liveBroadcastContent = "upcoming".toList
    then none else some (videoOfItem it))

/-! ## `src/services/scheduler.py` per-video pipeline step -/

/-- A message delivery performed by `run_scheduled_job` for one video. -/
inductive SentMsg
  | adminError (e : SummaryError)
  | photoCaption (caption : List Char)
  | textMsg (text : List Char)
deriving DecidableEq

/-- The outcomes of the external effects touched while processing one
video: transcript fetch, prompt load, summarizer subprocess, whether the
thumbnail photo send succeeds, and the clock value used by
`mark_summarized`. -/
structure EffectOutcomes where
  transcript : TranscriptFetch
  promptExists : Bool
  cli : CLIOutcome
  photoSendOk : Bool
  now : Int
deriving DecidableEq

/-- The two skip guards at the top of the `for video in videos` loop of
`scheduler.run_scheduled_job`: skip when the id is already stored, and skip
when both the channel's latest stored publish date and the video's publish
date exist and the video is not strictly newer. -/
def consideredNew (st : Store) (latestPublished : Option Int) (v : Video) : Bool :=
  if existsVideo st v.video_id then false
  else
    match latestPublished, v.published_at with
    | some l, some p => decide (l < p)
    | _, _ => true

/-- The body of the `for video in videos` loop of `run_scheduled_job` for a
single video: guards, stub creation, summarization, error report or
delivery, and the summarized mark.  Returns the store after the step and
the messages sent, in order. -/
def process_video (st : Store) (latestPublished : Option Int) (v : Video)
    (o : EffectOutcomes) : Store × List SentMsg :=
  if !consideredNew st latestPublished v then (st, [])
  else
    let st1 := createVideo st v
    match summarize_video v o.transcript o.promptExists o.cli with
    | (_, some e) => (st1, [.adminError e])
    | (some s, none) =>
        if s.isEmpty then (st1, [])
        else
          let (caption0, body) := split_summary_for_photo s
          let caption := fix_html_tags caption0
          let capMsgs : List SentMsg :=
            match v.thumbnail_url with
            | some _ => if o.photoSendOk then [.photoCaption caption] else [.textMsg caption]
            | none => [.textMsg caption]
          let bodyMsgs : List SentMsg :=
            if body.isEmpty then []
            else (split_message body TELEGRAM_MAX_LENGTH).map (fun p => .textMsg (fix_html_tags p))
          (markSummarized st1 v.video_id o.now, capMsgs ++ bodyMsgs)
    | (none, none) => (st1, [])

/-! ## Store helper lemmas -/

theorem existsVideo_createVideo (st : Store) (v : Video) :
    existsVideo (createVideo st v) v.video_id = true := by
  simp [existsVideo, createVideo]

theorem consideredNew_not_exists {st : Store} {latest : Option Int} {v : Video}
    (h : consideredNew st latest v = true) : existsVideo st v.video_id = false := by
  by_contra hne
  simp only [Bool.not_eq_false] at hne
  simp [consideredNew, hne] at h

theorem summarizedAt_createVideo (st : Store) (v : Video)
    (h : existsVideo st v.video_id = false) :
    summarizedAt (createVideo st v) v.video_id = none := by
  have hall : ∀ r ∈ st.videos, (r.video_id == v.video_id) = false := by
    intro r hr
    by_contra hb
    simp only [Bool.not_eq_false] at hb
    have : existsVideo st v.video_id = true := by
      simp only [existsVideo, List.any_eq_true]
      exact ⟨r, hr, hb⟩
    simp [this] at h
  have hfind : st.videos.find? (fun r => r.video_id == v.video_id) = none :=
    List.find?_eq_none.mpr fun r hr => by simp [hall r hr]
  simp [summarizedAt, createVideo, List.find?_append, hfind]

theorem process_video_skips_existing (st : Store) (latest : Option Int) (v : Video)
    (o : EffectOutcomes) (h : existsVideo st v.video_id = true) :
    process_video st latest v o = (st, []) := by
  simp [process_video, consideredNew, h]

theorem existsVideo_markSummarized (st : Store) (vid vid2 : List Char) (now : Int) :
    existsVideo (markSummarized st vid now) vid2 = existsVideo st vid2 := by
  simp only [existsVideo, markSummarized, List.any_map]
  apply congrArg
  funext r
  by_cases h : (r.video_id == vid) = true <;> simp [Function.comp, h]

/-! ## C3: section-count tiers -/

/-- C3 counterexample: the claim says the target minimum section count for
an unknown (null) duration is 10, but `get_min_sections(None)` is 6. -/
theorem C3_counterexample : get_min_sections none = 6 ∧ get_min_sections none ≠ 10 := by
  decide

/-- C3 (amended): the target minimum section count is 3 for a known
duration under 10 minutes, 6 for under 30 minutes, 8 for under 60 minutes,
10 for at least 60 minutes, and 6 (not 10) for an unknown (null)
duration. -/
theorem C3_min_sections_tiers :
    get_min_sections none = 6 ∧
    ∀ s : Int,
      (s < 600 → get_min_sections (some s) = 3) ∧
      (600 ≤ s → s < 1800 → get_min_sections (some s) = 6) ∧
      (1800 ≤ s → s < 3600 → get_min_sections (some s) = 8) ∧
      (3600 ≤ s → get_min_sections (some s) = 10) := by
  refine ⟨rfl, fun s => ⟨fun h => ?_, fun h1 h2 => ?_, fun h1 h2 => ?_, fun h => ?_⟩⟩ <;>
    · simp only [get_min_sections]
      split_ifs <;> omega

/-- Witness for `C3_min_sections_tiers` at the tier boundaries. -/
theorem C3_witness :
    get_min_sections (some 599) = 3 ∧ get_min_sections (some 600) = 6 ∧
    get_min_sections (some 1800) = 8 ∧ get_min_sections (some 3600) = 10 ∧
    get_min_sections none = 6 :=
  ⟨(C3_min_sections_tiers.2 599).1 (by decide),
   (C3_min_sections_tiers.2 600).2.1 (by decide) (by decide),
   (C3_min_sections_tiers.2 1800).2.2.1 (by decide) (by decide),
   (C3_min_sections_tiers.2 3600).2.2.2 (by decide),
   C3_min_sections_tiers.1⟩

/-! ## C6: store dedup -/

/-- C6: a video whose external id is already present in the store is
skipped before any stub creation, summarization, or delivery: the pipeline
step leaves the store unchanged and sends nothing. -/
theorem C6_already_stored_never_reprocessed (st : Store) (latest : Option Int) (v : Video)
    (o : EffectOutcomes) (h : existsVideo st v.video_id = true) :
    process_video st latest v o = (st, []) :=
  process_video_skips_existing st latest v o h

/-- Witness for `C6_already_stored_never_reprocessed` on a one-row store. -/
theorem C6_witness :
    process_video ⟨[⟨"A".toList, "C".toList, none, none⟩]⟩ none
      ⟨"A".toList, "C".toList, "T".toList, none, none, none, none⟩
      ⟨.ok [], true, .timedOut, true, 0⟩ =
      (⟨[⟨"A".toList, "C".toList, none, none⟩]⟩, []) :=
  C6_already_stored_never_reprocessed _ _ _ _ (by decide)

/-! ## C4: summarizer timeout -/

/-- C4: when the summarizer subprocess exceeds the 180-second ceiling, the
process is killed, `call_claude` returns a `TIMEOUT` error and no text,
`summarize_video` propagates that error with the video title/id attached,
and the pipeline step leaves the video's stub unsummarized, sending only
the operator error report. -/
theorem C4_timeout_terminates_without_summary (st : Store) (latest : Option Int) (v : Video)
    (entries : List (List Char)) (pok : Bool) (now : Int)
    (hnew : consideredNew st latest v = true)
    (hts : (joinSpace entries).isEmpty = false) :
    (call_claude .timedOut).procKilled = true ∧
    (call_claude .timedOut).summary = none ∧
    (∃ e : SummaryError,
      summarize_video v (.ok entries) true .timedOut = (none, some e) ∧
      e.error_type = .TIMEOUT ∧ e.video_title = some v.title ∧ e.video_id = some v.video_id) ∧
    (let r := process_video st latest v ⟨.ok entries, true, .timedOut, pok, now⟩
     existsVideo r.1 v.video_id = true ∧ summarizedAt r.1 v.video_id = none ∧
     ∃ e : SummaryError, r.2 = [.adminError e] ∧ e.error_type = .TIMEOUT) := by
  have hsum : summarize_video v (.ok entries) true .timedOut =
      (none, some ⟨.TIMEOUT, "요약 생성이 180초를 초과하여 중단되었습니다.".toList,
        some v.title, some v.video_id⟩) := by
    simp [summarize_video, get_transcript, call_claude, hts]
  have hproc : process_video st latest v ⟨.ok entries, true, .timedOut, pok, now⟩ =
      (createVideo st v,
       [.adminError ⟨.TIMEOUT, "요약 생성이 180초를 초과하여 중단되었습니다.".toList,
          some v.title, some v.video_id⟩]) := by
    simp [process_video, hnew, hsum]
  refine ⟨rfl, rfl, ⟨_, hsum, rfl, rfl, rfl⟩, ?_⟩
  rw [hproc]
  exact ⟨existsVideo_createVideo st v,
    summarizedAt_createVideo st v (consideredNew_not_exists hnew), _, rfl, rfl⟩

/-- Witness for `C4_timeout_terminates_without_summary` on an empty store. -/
theorem C4_witness :
    (call_claude .timedOut).procKilled = true ∧
    (call_claude .timedOut).summary = none ∧
    (∃ e : SummaryError,
      summarize_video ⟨"A".toList, "C".toList, "T".toList, none, none, none, none⟩
          (.ok ["hi".toList]) true .timedOut = (none, some e) ∧
      e.error_type = .TIMEOUT ∧ e.video_title = some "T".toList ∧
      e.video_id = some "A".toList) ∧
    (let r := process_video ⟨[]⟩ none ⟨"A".toList, "C".toList, "T".toList, none, none, none, none⟩
        ⟨.ok ["hi".toList], true, .timedOut, true, 0⟩
     existsVideo r.1 "A".toList = true ∧ summarizedAt r.1 "A".toList = none ∧
     ∃ e : SummaryError, r.2 = [.adminError e] ∧ e.error_type = .TIMEOUT) :=
  C4_timeout_terminates_without_summary ⟨[]⟩ none
    ⟨"A".toList, "C".toList, "T".toList, none, none, none, none⟩
    ["hi".toList] true 0 (by decide) (by decide)

/-! ## C8: summarization never escapes without a classified result -/

theorem call_claude_shape (cli : CLIOutcome) :
    (∃ s k, call_claude cli = ⟨some s, none, k⟩) ∨
    (∃ e k, call_claude cli = ⟨none, some e, k⟩) := by
  cases cli with
  | completed rc out err =>
      simp only [call_claude]
      split_ifs with h1 h2
      · exact .inr ⟨_, _, rfl⟩
      · exact .inr ⟨_, _, rfl⟩
      · exact .inl ⟨_, _, rfl⟩
  | timedOut => exact .inr ⟨_, _, rfl⟩
  | toolNotFound => exact .inr ⟨_, _, rfl⟩
  | failed m => exact .inr ⟨_, _, rfl⟩

theorem summarize_classified_aux (v : Video) (tf : TranscriptFetch) (p : Bool)
    (cli : CLIOutcome) (t : List Char)
    (hgt : get_transcript v.video_id tf = (some t, none)) :
    (∃ s, summarize_video v tf p cli = (some s, none)) ∨
    (∃ e : SummaryError,
      summarize_video v tf p cli = (none, some e) ∧
      e.video_title = some v.title ∧ e.video_id = some v.video_id) := by
  by_cases hts : t.isEmpty = true
  · have h : summarize_video v tf p cli =
        (none, some ⟨.NO_TRANSCRIPT, "자막을 가져올 수 없습니다.".toList,
          some v.title, some v.video_id⟩) := by
      simp [summarize_video, hgt, hts]
    exact .inr ⟨_, h, rfl, rfl⟩
  · simp only [Bool.not_eq_true] at hts
    by_cases hp : p = true
    · rcases call_claude_shape cli with ⟨s, k, hc⟩ | ⟨e, k, hc⟩
      · have h : summarize_video v tf p cli =
            (some (fix_html_tags (escapeAmp (clean_summary_output s))), none) := by
          simp [summarize_video, hgt, hts, hp, hc]
        exact .inl ⟨_, h⟩
      · have h : summarize_video v tf p cli =
            (none, some ⟨e.error_type, e.message, some v.title, some v.video_id⟩) := by
          simp [summarize_video, hgt, hts, hp, hc]
        exact .inr ⟨_, h, rfl, rfl⟩
    · simp only [Bool.not_eq_true] at hp
      have h : summarize_video v tf p cli =
          (none, some ⟨.UNKNOWN, "프롬프트 파일을 찾을 수 없습니다.".toList,
            some v.title, some v.video_id⟩) := by
        simp [summarize_video, hgt, hts, hp]
      exact .inr ⟨_, h, rfl, rfl⟩

theorem summarize_classified_err (v : Video) (tf : TranscriptFetch) (p : Bool)
    (cli : CLIOutcome) (e0 : SummaryError)
    (hgt : get_transcript v.video_id tf = (none, some e0)) :
    (∃ s, summarize_video v tf p cli = (some s, none)) ∨
    (∃ e : SummaryError,
      summarize_video v tf p cli = (none, some e) ∧
      e.video_title = some v.title ∧ e.video_id = some v.video_id) := by
  have h : summarize_video v tf p cli =
      (none, some ⟨e0.error_type, e0.message, some v.title, some v.video_id⟩) := by
    simp [summarize_video, hgt]
  exact .inr ⟨_, h, rfl, rfl⟩

/-- C8: for every combination of external outcomes, `summarize_video`
returns exactly a summary or a classified `SummaryError`, never an
unclassified failure; every error value carries the video title and id. -/
theorem C8_summarize_always_classified (v : Video) (tf : TranscriptFetch)
    (promptExists : Bool) (cli : CLIOutcome) :
    (∃ s, summarize_video v tf promptExists cli = (some s, none)) ∨
    (∃ e : SummaryError,
      summarize_video v tf promptExists cli = (none, some e) ∧
      e.video_title = some v.title ∧ e.video_id = some v.video_id) := by
  cases tf with
  | ok entries => exact summarize_classified_aux v _ promptExists cli _ rfl
  | noneFoundThenOk entries => exact summarize_classified_aux v _ promptExists cli _ rfl
  | noneFoundThenFail => exact summarize_classified_err v _ promptExists cli _ rfl
  | disabled => exact summarize_classified_err v _ promptExists cli _ rfl
  | unavailable => exact summarize_classified_err v _ promptExists cli _ rfl
  | failed m => exact summarize_classified_err v _ promptExists cli _ rfl

/-! ## C10: empty summary with no error is a silent dead end -/

/-- C10: when summarization returns an empty summary with no error, the
pipeline step delivers nothing, reports nothing, and does not mark the
video summarized: the stub stays with `summarized_at = NULL`, and because
its id is now stored, every later run skips it before doing anything. -/
theorem C10_empty_summary_dead_end (st : Store) (latest : Option Int) (v : Video)
    (o : EffectOutcomes) (hnew : consideredNew st latest v = true)
    (hsum : summarize_video v o.transcript o.promptExists o.cli = (some [], none)) :
    process_video st latest v o = (createVideo st v, []) ∧
    existsVideo (createVideo st v) v.video_id = true ∧
    summarizedAt (createVideo st v) v.video_id = none ∧
    (∀ (st2 : Store) (latest2 : Option Int) (o2 : EffectOutcomes),
      existsVideo st2 v.video_id = true → process_video st2 latest2 v o2 = (st2, [])) :=
  ⟨by simp [process_video, hnew, hsum],
   existsVideo_createVideo st v,
   summarizedAt_createVideo st v (consideredNew_not_exists hnew),
   fun st2 latest2 o2 h => process_video_skips_existing st2 latest2 v o2 h⟩

/-- Witness for `C10_empty_summary_dead_end`: raw summarizer output `---`
is cleaned to the empty string. -/
theorem C10_witness :
    process_video ⟨[]⟩ none ⟨"A".toList, "C".toList, "T".toList, none, none, none, none⟩
        ⟨.ok ["hi".toList], true, .completed 0 "---".toList [], true, 0⟩ =
      (createVideo ⟨[]⟩ ⟨"A".toList, "C".toList, "T".toList, none, none, none, none⟩, []) ∧
    summarizedAt
        (createVideo ⟨[]⟩ ⟨"A".toList, "C".toList, "T".toList, none, none, none, none⟩)
        "A".toList = none :=
  have h := C10_empty_summary_dead_end ⟨[]⟩ none
    ⟨"A".toList, "C".toList, "T".toList, none, none, none, none⟩
    ⟨.ok ["hi".toList], true, .completed 0 "---".toList [], true, 0⟩
    (by decide) (by decide)
  ⟨h.1, h.2.2.1⟩

/-! ## C5: live/upcoming filter and the date guard -/

/-- C5 counterexample: a video that was upcoming earlier and is now a
normal upload, whose id is absent from the store, is still not processed,
because the scheduler also skips by publish-date comparison: the store
holds a newer video of the channel, so the formerly-upcoming video
(publish timestamp 50 ≤ stored 100) is dropped without a stub.  This
refutes "dedup being decided by the stored external video id, not by
publish-date comparison". -/
theorem C5_counterexample :
    get_latest_videos
        [⟨"B".toList, "C".toList, "T".toList, "none".toList, 120, 50, "N".toList, "U".toList⟩] =
      [videoOfItem ⟨"B".toList, "C".toList, "T".toList, "none".toList, 120, 50, "N".toList, "U".toList⟩] ∧
    existsVideo ⟨[⟨"A".toList, "C".toList, some 100, some 7⟩]⟩ "B".toList = false ∧
    getLatestPublishedAt ⟨[⟨"A".toList, "C".toList, some 100, some 7⟩]⟩ "C".toList = some 100 ∧
    process_video ⟨[⟨"A".toList, "C".toList, some 100, some 7⟩]⟩ (some 100)
        (videoOfItem ⟨"B".toList, "C".toList, "T".toList, "none".toList, 120, 50, "N".toList, "U".toList⟩)
        ⟨.ok ["hi".toList], true, .completed 0 "ok".toList [], true, 0⟩ =
      (⟨[⟨"A".toList, "C".toList, some 100, some 7⟩]⟩, []) := by
  decide

/-- C5 (amended): the poller excludes feed items whose
`liveBroadcastContent` is `"live"` or `"upcoming"` and returns exactly the
videos of the remaining items; a returned video absent from the store is
processed (its stub is created) only if additionally its publish timestamp
is strictly later than the newest stored publish timestamp of the channel
(or one of the two timestamps is absent) — the scheduler skips by
publish-date comparison on top of the id-based dedup. -/
theorem C5_live_filter_and_date_guard :
    (∀ (items : List FeedItem) (it : FeedItem), it ∈ items →
      (it.liveBroadcastContent = "live".toList ∨ it.liveBroadcastContent = "upcoming".toList) →
      ∀ w ∈ get_latest_videos items,
        ∃ it2 ∈ items,
          ¬(it2.liveBroadcastContent = "live".toList ∨
            it2.liveBroadcastContent = "upcoming".toList) ∧ w = videoOfItem it2) ∧
    (∀ (items : List FeedItem) (it : FeedItem), it ∈ items →
      ¬(it.liveBroadcastContent = "live".toList ∨ it.liveBroadcastContent = "upcoming".toList) →
      videoOfItem it ∈ get_latest_videos items) ∧
    (∀ (st : Store) (latest : Option Int) (v : Video) (o : EffectOutcomes),
      existsVideo st v.video_id = false →
      (match latest, v.published_at with
       | some l, some p => l < p
       | _, _ => True) →
      consideredNew st latest v = true ∧
      existsVideo (process_video st latest v o).1 v.video_id = true) ∧
    (∀ (st : Store) (v : Video) (o : EffectOutcomes) (l p : Int),
      v.published_at = some p → p ≤ l →
      process_video st (some l) v o = (st, [])) := by
  refine ⟨?_, ?_, ?_, ?_⟩
  · intro items it _ _ w hw
    simp only [get_latest_videos, List.mem_filterMap] at hw
    obtain ⟨it2, hmem, heq⟩ := hw
    by_cases hl : it2.liveBroadcastContent = "live".toList ∨
        it2.liveBroadcastContent = "upcoming".toList
    · rw [if_pos hl] at heq
      exact absurd heq (by simp)
    · rw [if_neg hl] at heq
      exact ⟨it2, hmem, hl, (Option.some_inj.mp heq).symm⟩
  · intro items it hmem hl
    simp only [get_latest_videos, List.mem_filterMap]
    exact ⟨it, hmem, by rw [if_neg hl]⟩
  · intro st latest v o hex hdate
    have hnew : consideredNew st latest v = true := by
      unfold consideredNew
      rw [hex]
      simp only [Bool.false_eq_true, if_false]
      cases latest with
      | none => rfl
      | some l =>
          cases hpv : v.published_at with
          | none => rfl
          | some p =>
              rw [hpv] at hdate
              simpa using hdate
    refine ⟨hnew, ?_⟩
    unfold process_video
    rw [hnew]
    simp only [Bool.not_true, Bool.false_eq_true, if_false]
    rcases hs : summarize_video v o.transcript o.promptExists o.cli with ⟨s?, e?⟩
    rcases e? with _ | e
    · rcases s? with _ | s
      · exact existsVideo_createVideo st v
      · by_cases hse : s.isEmpty = true
        · simp only [hse, if_true]
          exact existsVideo_createVideo st v
        · simp only [hse, Bool.false_eq_true, if_false]
          show existsVideo (markSummarized (createVideo st v) v.video_id o.now) v.video_id = true
          rw [existsVideo_markSummarized]
          exact existsVideo_createVideo st v
    · rcases s? with _ | s <;> exact existsVideo_createVideo st v
  · intro st v o l p hp hle
    have h : consideredNew st (some l) v = false := by
      unfold consideredNew
      by_cases hex : existsVideo st v.video_id = true
      · simp [hex]
      · simp only [Bool.not_eq_true] at hex
        rw [hex]
        simp only [Bool.false_eq_true, if_false, hp]
        simp only [decide_eq_false_iff_not, not_lt]
        exact hle
    simp [process_video, h]

/-- Witness for `C5_live_filter_and_date_guard` on concrete feed items and
stores. -/
theorem C5_witness :
    (∃ it2 ∈ [⟨"L".toList, "C".toList, "T".toList, "upcoming".toList, 120, 50, "N".toList, "U".toList⟩,
              ⟨"B".toList, "C".toList, "T".toList, "none".toList, 120, 50, "N".toList, "U".toList⟩],
      ¬(FeedItem.liveBroadcastContent it2 = "live".toList ∨
        FeedItem.liveBroadcastContent it2 = "upcoming".toList) ∧
      videoOfItem ⟨"B".toList, "C".toList, "T".toList, "none".toList, 120, 50, "N".toList, "U".toList⟩ =
        videoOfItem it2) ∧
    (videoOfItem ⟨"B".toList, "C".toList, "T".toList, "none".toList, 120, 50, "N".toList, "U".toList⟩ ∈
      get_latest_videos
        [⟨"L".toList, "C".toList, "T".toList, "upcoming".toList, 120, 50, "N".toList, "U".toList⟩,
         ⟨"B".toList, "C".toList, "T".toList, "none".toList, 120, 50, "N".toList, "U".toList⟩]) ∧
    consideredNew ⟨[⟨"A".toList, "C".toList, some 100, some 7⟩]⟩ (some 100)
      ⟨"B".toList, "C".toList, "T".toList, none, some 150, none, none⟩ = true ∧
    process_video ⟨[⟨"A".toList, "C".toList, some 100, some 7⟩]⟩ (some 100)
        ⟨"B".toList, "C".toList, "T".toList, none, some 50, none, none⟩
        ⟨.ok ["hi".toList], true, .completed 0 "ok".toList [], true, 0⟩ =
      (⟨[⟨"A".toList, "C".toList, some 100, some 7⟩]⟩, []) := by
  have h := C5_live_filter_and_date_guard
  have h1 := h.1
    [⟨"L".toList, "C".toList, "T".toList, "upcoming".toList, 120, 50, "N".toList, "U".toList⟩,
     ⟨"B".toList, "C".toList, "T".toList, "none".toList, 120, 50, "N".toList, "U".toList⟩]
    ⟨"L".toList, "C".toList, "T".toList, "upcoming".toList, 120, 50, "N".toList, "U".toList⟩
    (by decide) (by decide)
    (videoOfItem ⟨"B".toList, "C".toList, "T".toList, "none".toList, 120, 50, "N".toList, "U".toList⟩)
    (by decide)
  have h2 := h.2.1
    [⟨"L".toList, "C".toList, "T".toList, "upcoming".toList, 120, 50, "N".toList, "U".toList⟩,
     ⟨"B".toList, "C".toList, "T".toList, "none".toList, 120, 50, "N".toList, "U".toList⟩]
    ⟨"B".toList, "C".toList, "T".toList, "none".toList, 120, 50, "N".toList, "U".toList⟩
    (by decide) (by decide)
  have h3 := (h.2.2.1 ⟨[⟨"A".toList, "C".toList, some 100, some 7⟩]⟩ (some 100)
    ⟨"B".toList, "C".toList, "T".toList, none, some 150, none, none⟩
    ⟨.ok ["hi".toList], true, .completed 0 "ok".toList [], true, 0⟩
    (by decide) (by decide)).1
  have h4 := h.2.2.2 ⟨[⟨"A".toList, "C".toList, some 100, some 7⟩]⟩
    ⟨"B".toList, "C".toList, "T".toList, none, some 50, none, none⟩
    ⟨.ok ["hi".toList], true, .completed 0 "ok".toList [], true, 0⟩
    100 50 rfl (by decide)
  exact ⟨h1, h2, h3, h4⟩

/-! ## C7: caption/body split -/

theorem dropWhile_length_le {α : Type} (p : α → Bool) (l : List α) :
    (l.dropWhile p).length ≤ l.length := by
  induction l with
  | nil => simp [List.dropWhile]
  | cons a l ih =>
      rw [List.dropWhile]
      cases h : p a
      · simp
      · simp only [List.length_cons]
        exact le_trans ih (Nat.le_succ _)

theorem rfindLtAux_lt_bound {ch : Char} {bound : Nat} :
    ∀ {s : List Char} {i j : Nat}, rfindLtAux ch bound s i = some j → j < bound := by
  intro s
  induction s with
  | nil => intro i j h; exact absurd h (by simp [rfindLtAux])
  | cons c rest ih =>
      intro i j h
      unfold rfindLtAux at h
      rcases hr : rfindLtAux ch bound rest (i + 1) with _ | j2
      · rw [hr] at h
        dsimp only at h
        split_ifs at h with hc
        · cases h
          exact hc.2
      · rw [hr] at h
        dsimp only at h
        cases h
        exact ih hr

theorem rfindLt_lt_bound {ch : Char} {bound : Nat} {s : List Char} {j : Nat}
    (h : rfindLt ch bound s = some j) : j < bound :=
  rfindLtAux_lt_bound h

theorem pyStrip_length_le (s : List Char) : (pyStrip s).length ≤ s.length := by
  unfold pyStrip
  calc ((s.dropWhile pyIsSpace).reverse.dropWhile pyIsSpace).reverse.length
      = ((s.dropWhile pyIsSpace).reverse.dropWhile pyIsSpace).length := List.length_reverse _
    _ ≤ (s.dropWhile pyIsSpace).reverse.length := dropWhile_length_le _ _
    _ = (s.dropWhile pyIsSpace).length := List.length_reverse _
    _ ≤ s.length := dropWhile_length_le _ _

/-- C7 counterexample: for input `" a" ++ marker`, the caption is `"a"`,
which is not a prefix of the pre-marker text `" a"` (the code strips
leading whitespace), refuting "caption is a prefix of the original text up
to the marker". -/
theorem C7_counterexample :
    findSub PHOTO_MARKER (' ' :: 'a' :: PHOTO_MARKER) = some 2 ∧
    (split_summary_for_photo (' ' :: 'a' :: PHOTO_MARKER)).1 = ['a'] ∧
    ((' ' :: 'a' :: PHOTO_MARKER).take 2).take (['a'].length) ≠ ['a'] := by
  decide

/-- C7 (amended): for text containing the section marker, the caption is
the pre-marker text trimmed of leading and trailing whitespace (a
contiguous substring, but not necessarily a prefix, of the pre-marker
text), its length is at most 1024, and when the trimmed pre-marker text
exceeds 1024 characters the caption is a trimmed truncation of it at an
offset at most 1000 (last newline before 1000, else last space, else a
hard cut) with an ellipsis `...` appended. -/
theorem C7_caption_bounded (s : List Char) (idx : Nat)
    (h : findSub PHOTO_MARKER s = some idx) :
    (split_summary_for_photo s).1.length ≤ 1024 ∧
    ((pyStrip (s.take idx)).length ≤ 1024 →
      (split_summary_for_photo s).1 = pyStrip (s.take idx)) ∧
    (1024 < (pyStrip (s.take idx)).length →
      ∃ k ≤ 1000,
        (split_summary_for_photo s).1 =
          pyStrip ((pyStrip (s.take idx)).take k) ++ ['.', '.', '.']) := by
  have hcut : ∀ k : Nat, k ≤ 1000 →
      (pyStrip ((pyStrip (s.take idx)).take k) ++ ['.', '.', '.']).length ≤ 1024 := by
    intro k hk
    have h1 : (pyStrip ((pyStrip (s.take idx)).take k)).length ≤ k :=
      le_trans (pyStrip_length_le _) (by simp [List.length_take])
    simp only [List.length_append, List.length_cons, List.length_nil]
    omega
  by_cases hlen : 1024 < (pyStrip (s.take idx)).length
  · have hstep : ∀ k : Nat, k ≤ 1000 →
        (split_summary_for_photo s).1 =
          pyStrip ((pyStrip (s.take idx)).take k) ++ ['.', '.', '.'] →
        (split_summary_for_photo s).1.length ≤ 1024 ∧
        ((pyStrip (s.take idx)).length ≤ 1024 →
          (split_summary_for_photo s).1 = pyStrip (s.take idx)) ∧
        (1024 < (pyStrip (s.take idx)).length →
          ∃ k ≤ 1000,
            (split_summary_for_photo s).1 =
              pyStrip ((pyStrip (s.take idx)).take k) ++ ['.', '.', '.']) := by
      intro k hk heq
      exact ⟨heq ▸ hcut k hk, fun hc => absurd hc (by omega), fun _ => ⟨k, hk, heq⟩⟩
    rcases hnl : rfindLt '\n' 1000 (pyStrip (s.take idx)) with _ | j
    · rcases hsp : rfindLt ' ' 1000 (pyStrip (s.take idx)) with _ | j
      · exact hstep 1000 le_rfl (by simp [split_summary_for_photo, h, hnl, hsp, hlen])
      · exact hstep j (rfindLt_lt_bound hsp).le
          (by simp [split_summary_for_photo, h, hnl, hsp, hlen])
    · exact hstep j (rfindLt_lt_bound hnl).le
        (by simp [split_summary_for_photo, h, hnl, hlen])
  · have heq : (split_summary_for_photo s).1 = pyStrip (s.take idx) := by
      simp [split_summary_for_photo, h, hlen]
    exact ⟨heq ▸ (by omega), fun _ => heq, fun hc => absurd hc hlen⟩

/-- Witness for `C7_caption_bounded` on `"hi" ++ marker`. -/
theorem C7_witness :
    (split_summary_for_photo ('h' :: 'i' :: PHOTO_MARKER)).1.length ≤ 1024 ∧
    (split_summary_for_photo ('h' :: 'i' :: PHOTO_MARKER)).1 =
      pyStrip (('h' :: 'i' :: PHOTO_MARKER).take 2) :=
  have h := C7_caption_bounded ('h' :: 'i' :: PHOTO_MARKER) 2 (by decide)
  ⟨h.1, h.2.1 (by decide)⟩

/-! ## C2/C9: occurrence counting under appends

The tag literals `<t>` / `</t>` contain `<` only as their first character
(`headLtOnly`).  Occurrences of such patterns can neither overlap each
other nor straddle the boundary of an appended block that itself starts
with `<`, which makes occurrence counts additive under the appends
performed by `fix_html_tags`. -/

theorem bandE {a b : Bool} (h : (a && b) = true) : a = true ∧ b = true := by
  simp_all

theorem bandI {a b : Bool} (h1 : a = true) (h2 : b = true) : (a && b) = true := by
  simp_all

theorem icIsPrefix_append_left : ∀ {p xs : List Char} (c : List Char),
    icIsPrefix p xs = true → icIsPrefix p (xs ++ c) = true := by
  intro p
  induction p with
  | nil => intro xs c _; rfl
  | cons a p ih =>
      intro xs c h
      cases xs with
      | nil => exact absurd h (by simp [icIsPrefix])
      | cons b xs =>
          rw [List.cons_append]
          unfold icIsPrefix at h ⊢
          rcases bandE h with ⟨h1, h2⟩
          exact bandI h1 (ih c h2)

theorem icIsPrefix_append_right : ∀ {p xs c : List Char},
    icIsPrefix p (xs ++ c) = true → p.length ≤ xs.length → icIsPrefix p xs = true := by
  intro p
  induction p with
  | nil => intro xs c _ _; rfl
  | cons a p ih =>
      intro xs c h hlen
      cases xs with
      | nil => simp at hlen
      | cons b xs =>
          rw [List.cons_append] at h
          unfold icIsPrefix at h ⊢
          rcases bandE h with ⟨h1, h2⟩
          refine bandI h1 (ih h2 ?_)
          simpa using hlen

theorem icIsPrefix_no_straddle : ∀ {q xs c : List Char},
    (q.all fun d => !(icEq d '<')) = true →
    (∀ d cs, c = d :: cs → d = '<') →
    icIsPrefix q (xs ++ c) = true → q.length ≤ xs.length := by
  intro q
  induction q with
  | nil => intro xs c _ _ _; simp
  | cons d q ih =>
      intro xs c hq hc h
      cases xs with
      | nil =>
          simp only [List.nil_append] at h
          cases c with
          | nil => exact absurd h (by simp [icIsPrefix])
          | cons e cs =>
              have he : e = '<' := hc e cs rfl
              unfold icIsPrefix at h
              rcases bandE h with ⟨h1, _⟩
              rw [he] at h1
              have hd := (List.all_eq_true.mp hq) d (by simp)
              rw [h1] at hd
              exact absurd hd (by simp)
      | cons b xs =>
          rw [List.cons_append] at h
          unfold icIsPrefix at h
          rcases bandE h with ⟨_, h2⟩
          have hq' : (q.all fun d => !(icEq d '<')) = true := by
            rw [List.all_cons] at hq
            exact (bandE hq).2
          simpa using Nat.succ_le_succ (ih hq' hc h2)

theorem countAux_append {p c : List Char} (hp : headLtOnly p = true)
    (hc : ∀ d cs, c = d :: cs → d = '<') :
    ∀ (s : List Char) (k : Nat), k ≤ s.length →
      countAux p k (s ++ c) = countAux p k s + countAux p 0 c := by
  intro s
  induction s with
  | nil =>
      intro k hk
      have hk0 : k = 0 := Nat.le_zero.mp hk
      subst hk0
      simp [countAux]
  | cons x s ih =>
      intro k hk
      cases k with
      | succ k' =>
          rw [List.cons_append]
          show countAux p (k' + 1) (x :: (s ++ c)) = countAux p (k' + 1) (x :: s) + countAux p 0 c
          rw [countAux, countAux]
          exact ih k' (Nat.le_of_succ_le_succ hk)
      | zero =>
          rw [List.cons_append]
          cases p with
          | nil => simp [headLtOnly] at hp
          | cons a q =>
              have hq : (q.all fun d => !(icEq d '<')) = true := by
                unfold headLtOnly at hp
                exact (bandE hp).2
              by_cases hm : icIsPrefix (a :: q) (x :: (s ++ c)) = true
              · have hm2 : icIsPrefix q (s ++ c) = true := by
                  unfold icIsPrefix at hm
                  exact (bandE hm).2
                have hlen : q.length ≤ s.length := icIsPrefix_no_straddle hq hc hm2
                have hm' : icIsPrefix (a :: q) (x :: s) = true :=
                  icIsPrefix_append_right (by rw [List.cons_append]; exact hm)
                    (by simpa using Nat.succ_le_succ hlen)
                rw [countAux, countAux, if_pos hm, if_pos hm']
                have hlen2 : (a :: q).length - 1 ≤ s.length := by simpa using hlen
                rw [ih ((a :: q).length - 1) hlen2]
                omega
              · have hm' : ¬(icIsPrefix (a :: q) (x :: s) = true) := by
                  intro hcon
                  exact hm (by rw [← List.cons_append]; exact icIsPrefix_append_left c hcon)
                rw [countAux, countAux, if_neg hm, if_neg hm']
                exact ih 0 (Nat.zero_le _)

theorem countOcc_append {p c : List Char} (hp : headLtOnly p = true)
    (hc : ∀ d cs, c = d :: cs → d = '<') (s : List Char) :
    countOcc p (s ++ c) = countOcc p s + countOcc p c :=
  countAux_append hp hc s 0 (Nat.zero_le _)

theorem flatten_replicate_closer_head {t : List Char} {n : Nat} :
    ∀ d cs, (List.replicate n (closeLit t)).flatten = d :: cs → d = '<' := by
  intro d cs h
  cases n with
  | zero => simp at h
  | succ n =>
      rw [List.replicate_succ, List.flatten_cons] at h
      unfold closeLit at h
      rw [List.cons_append] at h
      exact (List.cons_eq_cons.mp h).1.symm

theorem countOcc_block {p t : List Char} (hp : headLtOnly p = true) (n : Nat) :
    countOcc p ((List.replicate n (closeLit t)).flatten) = n * countOcc p (closeLit t) := by
  induction n with
  | zero => simp [countOcc, countAux]
  | succ n ih =>
      rw [List.replicate_succ, List.flatten_cons,
        countOcc_append hp flatten_replicate_closer_head, ih]
      ring

/-- Shape and cross-occurrence facts about the twelve tag literals,
checked by computation: every literal has `<` only at its head; no open
literal occurs in a close literal; a close literal occurs in a close
literal exactly when the tags are equal. -/
theorem tagLit_facts :
    (∀ u ∈ supportedTags, headLtOnly (openLit u) = true ∧ headLtOnly (closeLit u) = true) ∧
    (∀ u ∈ supportedTags, ∀ t ∈ supportedTags,
      countOcc (openLit u) (closeLit t) = 0 ∧
      countOcc (closeLit u) (closeLit t) = (if u = t then 1 else 0)) ∧
    supportedTags.Nodup := by
  decide

theorem fixTag_counts {t u : List Char} (ht : t ∈ supportedTags) (hu : u ∈ supportedTags)
    (text : List Char)
    (hle : countOcc (closeLit t) text ≤ countOcc (openLit t) text) :
    countOcc (openLit u) (fixTag t text) = countOcc (openLit u) text ∧
    countOcc (closeLit u) (fixTag t text) =
      countOcc (closeLit u) text +
        (if u = t then countOcc (openLit t) text - countOcc (closeLit t) text else 0) := by
  have hpo : headLtOnly (openLit u) = true := (tagLit_facts.1 u hu).1
  have hpc : headLtOnly (closeLit u) = true := (tagLit_facts.1 u hu).2
  have hoc : countOcc (openLit u) (closeLit t) = 0 := (tagLit_facts.2.1 u hu t ht).1
  have hcc : countOcc (closeLit u) (closeLit t) = (if u = t then 1 else 0) :=
    (tagLit_facts.2.1 u hu t ht).2
  unfold fixTag
  by_cases hlt : countOcc (closeLit t) text < countOcc (openLit t) text
  · rw [if_pos hlt]
    constructor
    · rw [countOcc_append hpo flatten_replicate_closer_head, countOcc_block hpo, hoc]
      omega
    · rw [countOcc_append hpc flatten_replicate_closer_head, countOcc_block hpc, hcc]
      by_cases hut : u = t <;> simp [hut]
  · have heq : countOcc (closeLit t) text = countOcc (openLit t) text := by omega
    rw [if_neg hlt, if_neg (by omega)]
    refine ⟨rfl, ?_⟩
    by_cases hut : u = t <;> simp [hut, heq]

theorem fixTagsList_counts :
    ∀ (L : List (List Char)) (text : List Char), L.Nodup →
      (∀ t ∈ L, t ∈ supportedTags) →
      (∀ t ∈ L, countOcc (closeLit t) text ≤ countOcc (openLit t) text) →
      ∀ u ∈ supportedTags,
        countOcc (openLit u) (fixTagsList L text) = countOcc (openLit u) text ∧
        countOcc (closeLit u) (fixTagsList L text) =
          countOcc (closeLit u) text +
            (if u ∈ L then countOcc (openLit u) text - countOcc (closeLit u) text else 0) := by
  intro L
  induction L with
  | nil => intro text _ _ _ u _; simp [fixTagsList]
  | cons t ts ih =>
      intro text hnd hsub hle u hu
      have ht : t ∈ supportedTags := hsub t (by simp)
      have hlet : countOcc (closeLit t) text ≤ countOcc (openLit t) text := hle t (by simp)
      have hstep := fun (w : List Char) (hw : w ∈ supportedTags) =>
        fixTag_counts ht hw text hlet
      have hnd' : ts.Nodup := (List.nodup_cons.mp hnd).2
      have htns : t ∉ ts := (List.nodup_cons.mp hnd).1
      have hsub' : ∀ w ∈ ts, w ∈ supportedTags := fun w hw => hsub w (by simp [hw])
      have hle' : ∀ w ∈ ts,
          countOcc (closeLit w) (fixTag t text) ≤ countOcc (openLit w) (fixTag t text) := by
        intro w hw
        have hwt : w ≠ t := fun he => htns (he ▸ hw)
        rcases hstep w (hsub' w hw) with ⟨ho, hc⟩
        rw [ho, hc, if_neg hwt]
        simpa using hle w (by simp [hw])
      have hmain := ih (fixTag t text) hnd' hsub' hle' u hu
      rcases hstep u hu with ⟨huo, huc⟩
      rcases hmain with ⟨hmo, hmc⟩
      rw [show fixTagsList (t :: ts) text = fixTagsList ts (fixTag t text) from rfl]
      constructor
      · rw [hmo, huo]
      · rw [hmc, huc, huo]
        by_cases hut : u = t
        · subst hut
          rw [if_pos rfl, if_neg htns, if_pos (List.mem_cons_self u ts)]
          try omega
        · rw [if_neg hut]
          by_cases huts : u ∈ ts
          · rw [if_pos huts, if_pos (List.mem_cons_of_mem t huts)]
            try omega
          · rw [if_neg huts, if_neg (by simp [hut, huts])]
            try omega

theorem fixTag_append_of_le {t text : List Char}
    (hle : countOcc (closeLit t) text ≤ countOcc (openLit t) text) :
    ∃ suffix, fixTag t text = text ++ suffix := by
  unfold fixTag
  by_cases hlt : countOcc (closeLit t) text < countOcc (openLit t) text
  · rw [if_pos hlt]
    exact ⟨_, rfl⟩
  · rw [if_neg hlt, if_neg (by omega)]
    exact ⟨[], (List.append_nil text).symm⟩

theorem fixTagsList_append_of_le :
    ∀ (L : List (List Char)) (text : List Char), L.Nodup →
      (∀ t ∈ L, t ∈ supportedTags) →
      (∀ t ∈ L, countOcc (closeLit t) text ≤ countOcc (openLit t) text) →
      ∃ suffix, fixTagsList L text = text ++ suffix := by
  intro L
  induction L with
  | nil =>
      intro text _ _ _
      exact ⟨[], (List.append_nil text).symm⟩
  | cons t ts ih =>
      intro text hnd hsub hle
      have ht := hsub t (by simp)
      have hlet := hle t (by simp)
      have hnd' := (List.nodup_cons.mp hnd).2
      have htns := (List.nodup_cons.mp hnd).1
      have hsub' : ∀ w ∈ ts, w ∈ supportedTags := fun w hw => hsub w (by simp [hw])
      have hle' : ∀ w ∈ ts,
          countOcc (closeLit w) (fixTag t text) ≤ countOcc (openLit w) (fixTag t text) := by
        intro w hw
        have hwt : w ≠ t := fun he => htns (he ▸ hw)
        rcases fixTag_counts ht (hsub' w hw) text hlet with ⟨ho, hc⟩
        rw [ho, hc, if_neg hwt]
        simpa using hle w (by simp [hw])
      obtain ⟨suf1, h1⟩ := fixTag_append_of_le hlet
      obtain ⟨suf2, h2⟩ := ih (fixTag t text) hnd' hsub' hle'
      refine ⟨suf1 ++ suf2, ?_⟩
      show fixTagsList ts (fixTag t text) = _
      rw [h2, h1, List.append_assoc]

/-- C2 counterexample: on `"<b>x</b><</i>/b>"` the repair leaves tag `b`
with one open and two close occurrences — removing the excess `</i>`
created a new `</b>` — and on `"<b>x</b>y</b>"` the excess closer is
removed from the start of the stream (yielding `"<b>xy</b>"`), not from
the end (which would yield `"<b>x</b>y"`). -/
theorem C2_counterexample :
    countOcc (openLit ['b']) (fix_html_tags "<b>x</b><</i>/b>".toList) = 1 ∧
    countOcc (closeLit ['b']) (fix_html_tags "<b>x</b><</i>/b>".toList) = 2 ∧
    fix_html_tags "<b>x</b>y</b>".toList = "<b>xy</b>".toList ∧
    "<b>xy</b>".toList ≠ "<b>x</b>y".toList := by
  decide

/-- C2 (amended): when no supported tag has more closes than opens
(case-insensitive), `fix_html_tags` only appends the missing closing tags
at the end, leaving every supported tag's open count unaltered and making
every supported tag's close count equal to its open count.  When closes
exceed opens, the excess closing tags are removed leftmost-first — from
the start of the stream, not from the end — and the removals can create
new tag occurrences, so in general the result need not have equal counts
and other tags' occurrences are not preserved. -/
theorem C2_balance_repair (text : List Char)
    (h : ∀ t ∈ supportedTags, countOcc (closeLit t) text ≤ countOcc (openLit t) text) :
    (∃ suffix, fix_html_tags text = text ++ suffix) ∧
    ∀ t ∈ supportedTags,
      countOcc (openLit t) (fix_html_tags text) = countOcc (openLit t) text ∧
      countOcc (closeLit t) (fix_html_tags text) = countOcc (openLit t) text := by
  refine ⟨fixTagsList_append_of_le supportedTags text tagLit_facts.2.2 (fun _ h => h) h,
    fun t ht => ?_⟩
  have hm := fixTagsList_counts supportedTags text tagLit_facts.2.2 (fun _ h => h) h t ht
  rcases hm with ⟨ho, hc⟩
  refine ⟨ho, ?_⟩
  rw [show fix_html_tags text = fixTagsList supportedTags text from rfl] at *
  rw [hc, if_pos ht]
  have := h t ht
  omega

/-- Witness for `C2_balance_repair` on `"<i>a"`. -/
theorem C2_witness :
    (∃ suffix, fix_html_tags "<i>a".toList = "<i>a".toList ++ suffix) ∧
    countOcc (openLit ['i']) (fix_html_tags "<i>a".toList) = 1 ∧
    countOcc (closeLit ['i']) (fix_html_tags "<i>a".toList) = 1 :=
  have h := C2_balance_repair "<i>a".toList (by decide)
  have hi := h.2 ['i'] (by decide)
  ⟨h.1, by rw [hi.1]; decide, by rw [hi.2]; decide⟩

theorem fixTag_id_of_balanced {t text : List Char}
    (h : countOcc (closeLit t) text = countOcc (openLit t) text) :
    fixTag t text = text := by
  unfold fixTag
  rw [if_neg (by omega), if_neg (by omega)]

theorem fixTagsList_id_of_balanced :
    ∀ (L : List (List Char)) (text : List Char),
      (∀ t ∈ L, countOcc (closeLit t) text = countOcc (openLit t) text) →
      fixTagsList L text = text := by
  intro L
  induction L with
  | nil => intro text _; rfl
  | cons t ts ih =>
      intro text hbal
      show fixTagsList ts (fixTag t text) = text
      rw [fixTag_id_of_balanced (hbal t (by simp))]
      exact ih text fun w hw => hbal w (by simp [hw])

/-- C9 counterexample: `fix_html_tags` is not idempotent: on
`"y<b></b><</i>/b>"` the first pass removes the excess `</i>`, creating a
new unbalanced `</b>`, which only the second pass removes. -/
theorem C9_counterexample :
    fix_html_tags (fix_html_tags "y<b></b><</i>/b>".toList) ≠
      fix_html_tags "y<b></b><</i>/b>".toList := by
  decide

/-- C9 (amended): running the tag-balance repair twice produces the same
result as running it once on every text in which no supported tag's close
count exceeds its open count (the repair then only appends, and its output
is balanced); on general input a removal can create new tag occurrences
that the first pass leaves unbalanced, so idempotence fails. -/
theorem C9_idempotent_when_no_excess_closers (text : List Char)
    (h : ∀ t ∈ supportedTags, countOcc (closeLit t) text ≤ countOcc (openLit t) text) :
    fix_html_tags (fix_html_tags text) = fix_html_tags text := by
  have hm := fixTagsList_counts supportedTags text tagLit_facts.2.2 (fun _ h => h) h
  show fixTagsList supportedTags (fix_html_tags text) = fix_html_tags text
  refine fixTagsList_id_of_balanced supportedTags (fix_html_tags text) fun t ht => ?_
  rcases hm t ht with ⟨ho, hc⟩
  show countOcc (closeLit t) (fixTagsList supportedTags text) = _
  rw [hc, if_pos ht]
  show _ = countOcc (openLit t) (fixTagsList supportedTags text)
  rw [ho]
  have := h t ht
  omega

/-- Witness for `C9_idempotent_when_no_excess_closers` on `"<b>hi"`. -/
theorem C9_witness :
    fix_html_tags (fix_html_tags "<b>hi".toList) = fix_html_tags "<b>hi".toList :=
  C9_idempotent_when_no_excess_closers "<b>hi".toList (by decide)

/-! ## C1: `split_message`

The splitter's re-joining characters (`"\n\n"` between paragraphs, `" "`
between words, and the whitespace trimmed by `strip`) are all whitespace,
so content preservation is stated on `nonWsContent`: the subsequence of
non-whitespace characters. -/

theorem nonWsContent_append (a b : List Char) :
    nonWsContent (a ++ b) = nonWsContent a ++ nonWsContent b :=
  List.filter_append ..

theorem nonWsContent_dropWhile (s : List Char) :
    nonWsContent (s.dropWhile pyIsSpace) = nonWsContent s := by
  induction s with
  | nil => rfl
  | cons c rest ih =>
      rw [List.dropWhile]
      cases h : pyIsSpace c
      · rfl
      · show nonWsContent (rest.dropWhile pyIsSpace) = nonWsContent (c :: rest)
        rw [ih]
        unfold nonWsContent
        rw [List.filter_cons]
        simp [h]

theorem nonWsContent_reverse (s : List Char) :
    nonWsContent s.reverse = (nonWsContent s).reverse :=
  List.filter_reverse ..

theorem nonWsContent_pyStrip (s : List Char) :
    nonWsContent (pyStrip s) = nonWsContent s := by
  unfold pyStrip
  rw [nonWsContent_reverse, nonWsContent_dropWhile, nonWsContent_reverse,
    List.reverse_reverse, nonWsContent_dropWhile]

theorem dropWhile_append_all {p : Char → Bool} {u : List Char}
    (hu : ∀ c ∈ u, p c = true) (w : List Char) :
    (u ++ w).dropWhile p = w.dropWhile p := by
  induction u with
  | nil => rfl
  | cons c u ih =>
      rw [List.cons_append, List.dropWhile, hu c (by simp)]
      exact ih fun d hd => hu d (by simp [hd])

theorem dropWhile_append_split (p : Char → Bool) (a b : List Char) :
    (a ++ b).dropWhile p =
      if (a.dropWhile p).isEmpty then b.dropWhile p else a.dropWhile p ++ b := by
  induction a with
  | nil => simp
  | cons c a ih =>
      rw [List.cons_append, List.dropWhile, List.dropWhile]
      cases h : p c
      · simp
      · simpa using ih

theorem dropWhile_all_ws {p : Char → Bool} {b : List Char}
    (hb : ∀ c ∈ b, p c = true) : b.dropWhile p = [] := by
  induction b with
  | nil => rfl
  | cons c b ih =>
      rw [List.dropWhile, hb c (by simp)]
      exact ih fun d hd => hb d (by simp [hd])

theorem pyStrip_append_ws {a b : List Char} (hb : ∀ c ∈ b, pyIsSpace c = true) :
    pyStrip (a ++ b) = pyStrip a := by
  unfold pyStrip
  rw [dropWhile_append_split]
  cases hde : (a.dropWhile pyIsSpace).isEmpty
  · simp only [hde, Bool.false_eq_true, if_false]
    rw [List.reverse_append]
    rw [dropWhile_append_all (by intro c hc; exact hb c (List.mem_reverse.mp hc))]
  · simp only [hde, if_true]
    rw [dropWhile_all_ws hb]
    simp [List.isEmpty_iff.mp hde]

theorem splitParaAux_content (s acc : List Char) :
    ((splitParaAux s acc).map nonWsContent).flatten =
      nonWsContent acc.reverse ++ nonWsContent s := by
  induction s, acc using splitParaAux.induct with
  | case1 acc => simp [splitParaAux, nonWsContent]
  | case2 c acc =>
      simp [splitParaAux, nonWsContent_append]
  | case3 a b rest acc h ih =>
      rw [splitParaAux, if_pos h]
      obtain ⟨ha, hb⟩ := h
      subst ha hb
      simp only [List.map_cons, List.flatten_cons, ih]
      have : nonWsContent ('\n' :: '\n' :: rest) = nonWsContent rest := by
        unfold nonWsContent
        rw [List.filter_cons, List.filter_cons]
        simp [pyIsSpace]
      rw [this]
      simp [nonWsContent]
  | case4 a b rest acc h ih =>
      rw [splitParaAux, if_neg h, ih]
      rw [List.reverse_cons, nonWsContent_append]
      show _ ++ nonWsContent (b :: rest) = _ ++ nonWsContent (a :: b :: rest)
      unfold nonWsContent
      rw [List.filter_cons (x := a)]
      cases hp : !(pyIsSpace a) <;> simp [hp]

theorem splitWsAux_content (s acc : List Char) :
    ((splitWsAux s acc).map nonWsContent).flatten =
      nonWsContent acc.reverse ++ nonWsContent s := by
  induction s, acc using splitWsAux.induct with
  | case1 acc hac =>
      rw [splitWsAux, if_pos hac]
      simp [List.isEmpty_iff.mp hac, nonWsContent]
  | case2 acc hac =>
      rw [splitWsAux, if_neg hac]
      simp [nonWsContent]
  | case3 c rest acc hc hac ih =>
      rw [splitWsAux, if_pos hc, if_pos hac]
      rw [ih, List.isEmpty_iff.mp hac]
      show nonWsContent List.nil.reverse ++ nonWsContent rest = _ ++ nonWsContent (c :: rest)
      unfold nonWsContent
      rw [List.filter_cons (x := c)]
      simp [hc]
  | case4 c rest acc hc hac ih =>
      rw [splitWsAux, if_pos hc, if_neg hac]
      simp only [List.map_cons, List.flatten_cons, ih]
      show _ ++ (nonWsContent List.nil.reverse ++ nonWsContent rest) =
        _ ++ nonWsContent (c :: rest)
      unfold nonWsContent
      rw [List.filter_cons (x := c)]
      simp [hc]
  | case5 c rest acc hc ih =>
      rw [splitWsAux, if_neg hc, ih]
      rw [List.reverse_cons, nonWsContent_append, List.append_assoc]
      rw [show (c :: rest) = [c] ++ rest from rfl, nonWsContent_append]

theorem splitWsAux_append_ws {c : Char} (hc : pyIsSpace c = true) (t : List Char) :
    ∀ (s acc : List Char),
      splitWsAux (s ++ c :: t) acc = splitWsAux s acc ++ splitWsAux t [] := by
  intro s
  induction s with
  | nil =>
      intro acc
      show splitWsAux (c :: t) acc = splitWsAux [] acc ++ splitWsAux t []
      rw [splitWsAux, splitWsAux, if_pos hc]
      by_cases hac : acc.isEmpty = true
      · rw [if_pos hac, if_pos hac]
        rfl
      · rw [if_neg hac, if_neg hac]
        rfl
  | cons x s ih =>
      intro acc
      rw [List.cons_append, splitWsAux, splitWsAux]
      by_cases hx : pyIsSpace x = true
      · rw [if_pos hx, if_pos hx]
        by_cases hac : acc.isEmpty = true
        · rw [if_pos hac, if_pos hac]
          exact ih []
        · rw [if_neg hac, if_neg hac, ih [], List.cons_append]
      · rw [if_neg hx, if_neg hx]
        exact ih (x :: acc)

theorem splitParaAux_words (s acc : List Char) :
    ((splitParaAux s acc).map pySplitWs).flatten = splitWsAux (acc.reverse ++ s) [] := by
  induction s, acc using splitParaAux.induct with
  | case1 acc => simp [splitParaAux, pySplitWs]
  | case2 c acc => simp [splitParaAux, pySplitWs, List.reverse_cons]
  | case3 a b rest acc h ih =>
      rw [splitParaAux, if_pos h]
      obtain ⟨ha, hb⟩ := h
      subst ha hb
      simp only [List.map_cons, List.flatten_cons, ih]
      rw [splitWsAux_append_ws (show pyIsSpace '\n' = true by decide) ('\n' :: rest)
        acc.reverse []]
      rw [show splitWsAux ('\n' :: rest) [] = splitWsAux rest [] from rfl]
      rfl
  | case4 a b rest acc h ih =>
      rw [splitParaAux, if_neg h, ih, List.reverse_cons, List.append_assoc,
        List.singleton_append]

theorem pySplitWs_paras (text : List Char) :
    ((pySplitParas text).map pySplitWs).flatten = pySplitWs text := by
  show ((splitParaAux text []).map pySplitWs).flatten = pySplitWs text
  rw [splitParaAux_words]
  rfl

theorem word_mem_of_para {text p w : List Char} (hp : p ∈ pySplitParas text)
    (hw : w ∈ pySplitWs p) : w ∈ pySplitWs text := by
  rw [← pySplitWs_paras]
  exact List.mem_flatten.mpr ⟨pySplitWs p, List.mem_map_of_mem _ hp, hw⟩

theorem packWords_spec (maxLen : Nat) :
    ∀ (ws : List (List Char)) (st : SplitState),
      (∀ w ∈ ws, w.length + 1 ≤ maxLen) →
      (∀ q ∈ st.parts, q.length ≤ maxLen) →
      (pyStrip st.current).length ≤ maxLen →
      (∀ q ∈ (packWords maxLen ws st).parts, q.length ≤ maxLen) ∧
      (pyStrip (packWords maxLen ws st).current).length ≤ maxLen ∧
      ((packWords maxLen ws st).parts.map nonWsContent).flatten ++
          nonWsContent (packWords maxLen ws st).current =
        (st.parts.map nonWsContent).flatten ++ nonWsContent st.current ++
          (ws.map nonWsContent).flatten := by
  intro ws
  induction ws with
  | nil =>
      intro st _ h1 h2
      exact ⟨h1, h2, by simp [packWords]⟩
  | cons w ws ih =>
      intro st hws h1 h2
      rw [packWords]
      by_cases hfit : st.current.length + w.length + 1 ≤ maxLen
      · rw [if_pos hfit]
        have hcur : (pyStrip (st.current ++ w ++ [' '])).length ≤ maxLen := by
          have h3 := pyStrip_length_le (st.current ++ w ++ [' '])
          simp only [List.length_append, List.length_cons, List.length_nil] at h3
          omega
        have hrec := ih { st with current := st.current ++ w ++ [' '] }
          (fun u hu => hws u (by simp [hu])) h1 hcur
        refine ⟨hrec.1, hrec.2.1, ?_⟩
        rw [hrec.2.2]
        simp [nonWsContent_append, show nonWsContent [' '] = [] from rfl,
          List.append_assoc]
      · rw [if_neg hfit]
        have hp1 : ∀ q ∈ (if st.current.isEmpty then st.parts
            else st.parts ++ [pyStrip st.current]), q.length ≤ maxLen := by
          by_cases he : st.current.isEmpty = true
          · rw [if_pos he]; exact h1
          · rw [if_neg he]
            intro q hq
            rcases List.mem_append.mp hq with hq | hq
            · exact h1 q hq
            · rw [List.mem_singleton.mp hq]; exact h2
        have hw1 : (pyStrip (w ++ [' '])).length ≤ maxLen := by
          have := pyStrip_length_le (w ++ [' '])
          have hwl := hws w (by simp)
          simp at this
          omega
        have hrec := ih ⟨if st.current.isEmpty then st.parts
            else st.parts ++ [pyStrip st.current], w ++ [' ']⟩
          (fun u hu => hws u (by simp [hu])) hp1 hw1
        refine ⟨hrec.1, hrec.2.1, ?_⟩
        rw [hrec.2.2]
        dsimp only
        have hflat : (((if st.current.isEmpty then st.parts
            else st.parts ++ [pyStrip st.current]) : List (List Char)).map
              nonWsContent).flatten =
            (st.parts.map nonWsContent).flatten ++ nonWsContent st.current := by
          by_cases he : st.current.isEmpty = true
          · rw [if_pos he, List.isEmpty_iff.mp he]
            simp [nonWsContent]
          · rw [if_neg he]
            simp [nonWsContent_pyStrip]
        rw [hflat]
        simp [nonWsContent_append, show nonWsContent [' '] = [] from rfl,
          List.append_assoc]

theorem packParas_spec (maxLen : Nat) :
    ∀ (ps : List (List Char)) (st : SplitState),
      (∀ p ∈ ps, ∀ w ∈ pySplitWs p, w.length + 1 ≤ maxLen) →
      (∀ q ∈ st.parts, q.length ≤ maxLen) →
      (pyStrip st.current).length ≤ maxLen →
      (∀ q ∈ (packParas maxLen ps st).parts, q.length ≤ maxLen) ∧
      (pyStrip (packParas maxLen ps st).current).length ≤ maxLen ∧
      ((packParas maxLen ps st).parts.map nonWsContent).flatten ++
          nonWsContent (packParas maxLen ps st).current =
        (st.parts.map nonWsContent).flatten ++ nonWsContent st.current ++
          (ps.map nonWsContent).flatten := by
  intro ps
  induction ps with
  | nil =>
      intro st _ h1 h2
      exact ⟨h1, h2, by simp [packParas]⟩
  | cons p ps ih =>
      intro st hps h1 h2
      rw [packParas]
      by_cases hfit : st.current.length + p.length + 2 ≤ maxLen
      · rw [if_pos hfit]
        have hcur : (pyStrip (st.current ++ p ++ ['\n', '\n'])).length ≤ maxLen := by
          have h3 := pyStrip_length_le (st.current ++ p ++ ['\n', '\n'])
          simp only [List.length_append, List.length_cons, List.length_nil] at h3
          omega
        have hrec := ih { st with current := st.current ++ p ++ ['\n', '\n'] }
          (fun q hq => hps q (by simp [hq])) h1 hcur
        refine ⟨hrec.1, hrec.2.1, ?_⟩
        rw [hrec.2.2]
        simp [nonWsContent_append, show nonWsContent ['\n', '\n'] = [] from rfl,
          List.append_assoc]
      · rw [if_neg hfit]
        have hp1 : ∀ q ∈ (if st.current.isEmpty then st.parts
            else st.parts ++ [pyStrip st.current]), q.length ≤ maxLen := by
          by_cases he : st.current.isEmpty = true
          · rw [if_pos he]; exact h1
          · rw [if_neg he]
            intro q hq
            rcases List.mem_append.mp hq with hq | hq
            · exact h1 q hq
            · rw [List.mem_singleton.mp hq]; exact h2
        have hflat : (((if st.current.isEmpty then st.parts
            else st.parts ++ [pyStrip st.current]) : List (List Char)).map
              nonWsContent).flatten =
            (st.parts.map nonWsContent).flatten ++ nonWsContent st.current := by
          by_cases he : st.current.isEmpty = true
          · rw [if_pos he, List.isEmpty_iff.mp he]
            simp [nonWsContent]
          · rw [if_neg he]
            simp [nonWsContent_pyStrip]
        by_cases hlong : maxLen < p.length
        · rw [if_pos hlong]
          have hwords := packWords_spec maxLen (pySplitWs p)
            ⟨if st.current.isEmpty then st.parts else st.parts ++ [pyStrip st.current], []⟩
            (fun w hw => hps p (by simp) w hw) hp1 (Nat.zero_le _)
          have hrec := ih (packWords maxLen (pySplitWs p)
              ⟨if st.current.isEmpty then st.parts else st.parts ++ [pyStrip st.current], []⟩)
            (fun q hq => hps q (by simp [hq])) hwords.1 hwords.2.1
          refine ⟨hrec.1, hrec.2.1, ?_⟩
          rw [hrec.2.2, hwords.2.2]
          dsimp only
          rw [hflat]
          have hwp : ((pySplitWs p).map nonWsContent).flatten = nonWsContent p := by
            show ((splitWsAux p []).map nonWsContent).flatten = nonWsContent p
            rw [splitWsAux_content]
            rfl
          rw [hwp]
          simp [List.append_assoc, nonWsContent]
        · rw [if_neg hlong]
          have hcur2 : (pyStrip (p ++ ['\n', '\n'])).length ≤ maxLen := by
            rw [pyStrip_append_ws (by decide)]
            have := pyStrip_length_le p
            omega
          have hrec := ih ⟨(if st.current.isEmpty then st.parts
              else st.parts ++ [pyStrip st.current]), p ++ ['\n', '\n']⟩
            (fun q hq => hps q (by simp [hq])) hp1 hcur2
          refine ⟨hrec.1, hrec.2.1, ?_⟩
          rw [hrec.2.2]
          dsimp only
          rw [hflat]
          simp [nonWsContent_append, show nonWsContent ['\n', '\n'] = [] from rfl,
            List.append_assoc]

theorem packWords_content (maxLen : Nat) :
    ∀ (ws : List (List Char)) (st : SplitState),
      ((packWords maxLen ws st).parts.map nonWsContent).flatten ++
          nonWsContent (packWords maxLen ws st).current =
        (st.parts.map nonWsContent).flatten ++ nonWsContent st.current ++
          (ws.map nonWsContent).flatten := by
  intro ws
  induction ws with
  | nil =>
      intro st
      simp [packWords]
  | cons w ws ih =>
      intro st
      rw [packWords]
      by_cases hfit : st.current.length + w.length + 1 ≤ maxLen
      · rw [if_pos hfit]
        rw [ih { st with current := st.current ++ w ++ [' '] }]
        simp [nonWsContent_append, show nonWsContent [' '] = [] from rfl,
          List.append_assoc]
      · rw [if_neg hfit]
        have hrec := ih ⟨if st.current.isEmpty then st.parts
            else st.parts ++ [pyStrip st.current], w ++ [' ']⟩
        rw [hrec]
        dsimp only
        have hflat : (((if st.current.isEmpty then st.parts
            else st.parts ++ [pyStrip st.current]) : List (List Char)).map
              nonWsContent).flatten =
            (st.parts.map nonWsContent).flatten ++ nonWsContent st.current := by
          by_cases he : st.current.isEmpty = true
          · rw [if_pos he, List.isEmpty_iff.mp he]
            simp [nonWsContent]
          · rw [if_neg he]
            simp [nonWsContent_pyStrip]
        rw [hflat]
        simp [nonWsContent_append, show nonWsContent [' '] = [] from rfl,
          List.append_assoc]

theorem packParas_content (maxLen : Nat) :
    ∀ (ps : List (List Char)) (st : SplitState),
      ((packParas maxLen ps st).parts.map nonWsContent).flatten ++
          nonWsContent (packParas maxLen ps st).current =
        (st.parts.map nonWsContent).flatten ++ nonWsContent st.current ++
          (ps.map nonWsContent).flatten := by
  intro ps
  induction ps with
  | nil =>
      intro st
      simp [packParas]
  | cons p ps ih =>
      intro st
      rw [packParas]
      by_cases hfit : st.current.length + p.length + 2 ≤ maxLen
      · rw [if_pos hfit]
        rw [ih { st with current := st.current ++ p ++ ['\n', '\n'] }]
        simp [nonWsContent_append, show nonWsContent ['\n', '\n'] = [] from rfl,
          List.append_assoc]
      · rw [if_neg hfit]
        have hflat : (((if st.current.isEmpty then st.parts
            else st.parts ++ [pyStrip st.current]) : List (List Char)).map
              nonWsContent).flatten =
            (st.parts.map nonWsContent).flatten ++ nonWsContent st.current := by
          by_cases he : st.current.isEmpty = true
          · rw [if_pos he, List.isEmpty_iff.mp he]
            simp [nonWsContent]
          · rw [if_neg he]
            simp [nonWsContent_pyStrip]
        by_cases hlong : maxLen < p.length
        · rw [if_pos hlong]
          rw [ih (packWords maxLen (pySplitWs p)
            ⟨if st.current.isEmpty then st.parts else st.parts ++ [pyStrip st.current], []⟩)]
          rw [packWords_content maxLen (pySplitWs p)
            ⟨if st.current.isEmpty then st.parts else st.parts ++ [pyStrip st.current], []⟩]
          dsimp only
          rw [hflat]
          have hwp : ((pySplitWs p).map nonWsContent).flatten = nonWsContent p := by
            show ((splitWsAux p []).map nonWsContent).flatten = nonWsContent p
            rw [splitWsAux_content]
            rfl
          rw [hwp]
          simp [List.append_assoc, nonWsContent]
        · rw [if_neg hlong]
          rw [ih ⟨(if st.current.isEmpty then st.parts
              else st.parts ++ [pyStrip st.current]), p ++ ['\n', '\n']⟩]
          dsimp only
          rw [hflat]
          simp [nonWsContent_append, show nonWsContent ['\n', '\n'] = [] from rfl,
            List.append_assoc]

theorem nonWsContent_take_nil {text : List Char} (h : nonWsContent text = [])
    (n : Nat) : nonWsContent (text.take n) = [] := by
  unfold nonWsContent at h ⊢
  rw [List.filter_eq_nil_iff] at h ⊢
  exact fun c hc => h c (List.take_subset n text hc)

/-- C1 counterexample: with limit 5, a single 7-character word is returned
as a part of length 7 > 5, refuting "each part has length at most the
configured maximum". -/
theorem C1_counterexample :
    split_message (List.replicate 7 'a') 5 = [List.replicate 7 'a'] ∧
    ¬(∀ q ∈ split_message (List.replicate 7 'a') 5, q.length ≤ 5) := by
  decide

/-- C1 (amended): unconditionally, the concatenation of the parts returned
by `split_message` preserves the text's non-whitespace content in the
original order (the paragraph/word re-joining characters and the trimmed
whitespace are all whitespace).  Provided additionally every
whitespace-delimited word of the text is shorter than the maximum length
(word length + 1 ≤ max), every part has length at most the maximum; a lone
word longer than the maximum is emitted as an oversized part. -/
theorem C1_split_message_spec (text : List Char) (maxLen : Nat) :
    ((split_message text maxLen).map nonWsContent).flatten = nonWsContent text ∧
    ((∀ w ∈ pySplitWs text, w.length + 1 ≤ maxLen) →
      ∀ q ∈ split_message text maxLen, q.length ≤ maxLen) := by
  unfold split_message
  by_cases hshort : text.length ≤ maxLen
  · rw [if_pos hshort]
    exact ⟨by simp, fun _ q hq => by rw [List.mem_singleton.mp hq]; exact hshort⟩
  · rw [if_neg hshort]
    have hparas : ((pySplitParas text).map nonWsContent).flatten = nonWsContent text := by
      show ((splitParaAux text []).map nonWsContent).flatten = nonWsContent text
      rw [splitParaAux_content]
      rfl
    have hstc : (((packParas maxLen (pySplitParas text) ⟨[], []⟩).parts.map
          nonWsContent).flatten ++
        nonWsContent (packParas maxLen (pySplitParas text) ⟨[], []⟩).current) =
        nonWsContent text := by
      rw [packParas_content maxLen (pySplitParas text) ⟨[], []⟩, ← hparas]
      simp [nonWsContent]
    have hbounds : (∀ w ∈ pySplitWs text, w.length + 1 ≤ maxLen) →
        (∀ q ∈ (packParas maxLen (pySplitParas text) ⟨[], []⟩).parts,
          q.length ≤ maxLen) ∧
        (pyStrip (packParas maxLen (pySplitParas text) ⟨[], []⟩).current).length ≤
          maxLen := by
      intro hw
      have hps : ∀ p ∈ pySplitParas text, ∀ w ∈ pySplitWs p, w.length + 1 ≤ maxLen :=
        fun p hp w hwm => hw w (word_mem_of_para hp hwm)
      have hmain := packParas_spec maxLen (pySplitParas text) ⟨[], []⟩ hps
        (by simp) (Nat.zero_le _)
      exact ⟨hmain.1, hmain.2.1⟩
    dsimp only
    set sp := packParas maxLen (pySplitParas text) ⟨[], []⟩ with hsp
    by_cases hemp : (pyStrip sp.current).isEmpty = true
    · rw [if_pos hemp]
      have hcur0 : nonWsContent sp.current = [] := by
        rw [← nonWsContent_pyStrip, List.isEmpty_iff.mp hemp]
        rfl
      have hflat : ((sp.parts.map nonWsContent).flatten) = nonWsContent text := by
        rw [← hstc, hcur0, List.append_nil]
      by_cases hpe : sp.parts.isEmpty = true
      · rw [if_pos hpe]
        have htext0 : nonWsContent text = [] := by
          rw [← hflat, List.isEmpty_iff.mp hpe]
          rfl
        refine ⟨?_, fun _ q hq => ?_⟩
        · simp [nonWsContent_take_nil htext0, htext0]
        · rw [List.mem_singleton.mp hq, List.length_take]
          omega
      · rw [if_neg hpe]
        exact ⟨hflat, fun hw q hq => (hbounds hw).1 q hq⟩
    · rw [if_neg hemp]
      have hne : (sp.parts ++ [pyStrip sp.current]).isEmpty = false := by
        cases h : sp.parts <;> simp [h]
      rw [if_neg (by simp [hne])]
      refine ⟨?_, fun hw q hq => ?_⟩
      · rw [← hstc]
        simp [nonWsContent_pyStrip]
      · rcases List.mem_append.mp hq with hq | hq
        · exact (hbounds hw).1 q hq
        · rw [List.mem_singleton.mp hq]
          exact (hbounds hw).2

/-- Witness for `C1_split_message_spec` on `"ab\n\ncd"` with limit 4,
discharging the word-length hypothesis of the bound conjunct. -/
theorem C1_witness :
    ((split_message "ab\n\ncd".toList 4).map nonWsContent).flatten =
      nonWsContent "ab\n\ncd".toList ∧
    (∀ q ∈ split_message "ab\n\ncd".toList 4, q.length ≤ 4) :=
  have h := C1_split_message_spec "ab\n\ncd".toList 4
  ⟨h.1, h.2 (by decide)⟩

end YtBot
